import Mathlib

/-!
A shallow embedding of the MIXi virtual-machine core (word.rs, register.rs,
instruction.rs, program.rs, computer.rs) in Lean 4.

Machine integers (u32, u16) are modelled as `Nat`; every operation of the
source masks its operands before use, and no source operation can wrap
(checked per definition below), so plain `Nat` arithmetic is bit-exact.
Rust assertions (which panic) are modelled by `Option`: a failed assertion
is `none`.
-/

namespace MIXi

/-! ### Word (word.rs)

`Word` represents a 31-bit quantity stored in a `u32` field `data`:
one sign bit (bit 30) plus 30 data bits, the data organized as 5 bytes of
6 bits each. -/

structure Word where
  data : Nat
deriving DecidableEq, Repr

def Word.BYTES : Nat := 5

def Word.SIGN_MASK : Nat := 0x40000000

def Word.DATA_MASK : Nat := 0x3FFFFFFF

def Word.VALUE_MASK : Nat := 0x7FFFFFFF

/-- Word::new: mask the number to the data bits, then set the sign bit iff
the optional sign is present and true. -/
def Word.new (number : Nat) (sign : Option Bool) : Word :=
  match sign with
  | some true => ⟨(number &&& Word.DATA_MASK) ||| Word.SIGN_MASK⟩
  | _ => ⟨number &&& Word.DATA_MASK⟩

/-- Default for Word: Word::new(0, None). -/
def Word.dflt : Word := Word.new 0 none

/-- From of u32 for Word: keep the low 31 bits. -/
def Word.ofU32 (value : Nat) : Word :=
  ⟨value &&& Word.VALUE_MASK⟩

def Word.read (w : Word) : Nat := w.data &&& Word.VALUE_MASK

def Word.read_data (w : Word) : Nat := w.data &&& Word.DATA_MASK

def Word.read_sign (w : Word) : Bool := decide ((w.data &&& Word.SIGN_MASK) ≠ 0)

/-- Modelled from the spec: the shared BitField primitive split_modifier is a
default method of the Data trait, whose source file is not part of src/; the
spec defines it as the pure decomposition (modifier / 10, modifier % 10)
with no side effect. -/
def split_modifier (modifier : Nat) : Nat × Nat :=
  (modifier / 10, modifier % 10)

/-- The arithmetic kernel of Word::get_byte (the 6-bit slice at a byte
position counted from the most significant side).  The assertion of
get_byte is checked at its callers; see Word.get_byte below. -/
def Word.byteVal (w : Word) (index : Nat) : Nat :=
  (w.data >>> ((Word.BYTES - index) * 6)) &&& 0b111111

/-- Word::get_byte with its assert!(index <= BYTES). -/
def Word.get_byte (w : Word) (index : Nat) : Option Nat :=
  if index ≤ Word.BYTES then some (w.byteVal index) else none

/-- Word::read_with_modifier: decode (left, right), assert!(right <= BYTES),
then fold (result << 6) | byte(index) over index in left..=right.  The loop
is empty when left > right (Rust's left..=right iterates nothing), and every
index it visits satisfies index <= right <= BYTES, so get_byte's assertion
cannot fire inside the loop. -/
def Word.read_with_modifier (w : Word) (modifier : Nat) : Option Nat :=
  let left := (split_modifier modifier).1
  let right := (split_modifier modifier).2
  if right ≤ Word.BYTES then
    some ((List.range' left (right + 1 - left)).foldl
      (fun result index => (result <<< 6) ||| w.byteVal index) 0)
  else
    none

/-- Word::write: replace magnitude and sign. -/
def Word.write (w : Word) (number : Nat) (sign : Bool) : Word :=
  ⟨(number &&& Word.DATA_MASK) ||| if sign then Word.SIGN_MASK else 0⟩

/-- Word::write_data: replace magnitude, preserve the sign bit. -/
def Word.write_data (w : Word) (number : Nat) : Word :=
  ⟨(number &&& Word.DATA_MASK) ||| (w.data &&& Word.SIGN_MASK)⟩

/-- Word::write_sign: set or clear the sign bit; !SIGN_MASK on u32 is
0xBFFFFFFF. -/
def Word.write_sign (w : Word) (sign : Bool) : Word :=
  if sign then ⟨w.data ||| Word.SIGN_MASK⟩
  else ⟨w.data &&& 0xBFFFFFFF⟩

/-! ### Register (register.rs)

13-bit quantity in a `u16` field: sign bit (bit 12) plus 12 data bits as
2 bytes of 6 bits. -/

structure Register where
  data : Nat
deriving DecidableEq, Repr

def Register.DATA_MASK : Nat := 0x0FFF

def Register.SIGN_MASK : Nat := 0x1000

def Register.VALUE_MASK : Nat := 0x1FFF

def Register.new (number : Nat) (sign : Option Bool) : Register :=
  match sign with
  | some true => ⟨(number &&& Register.DATA_MASK) ||| Register.SIGN_MASK⟩
  | _ => ⟨number &&& Register.DATA_MASK⟩

def Register.dflt : Register := Register.new 0 none

def Register.read (r : Register) : Nat := r.data &&& Register.VALUE_MASK

def Register.read_data (r : Register) : Nat := r.data &&& Register.DATA_MASK

def Register.read_sign (r : Register) : Bool :=
  decide ((r.data &&& Register.SIGN_MASK) ≠ 0)

/-- Arithmetic kernel of Register::get_byte (assertion checked at callers). -/
def Register.byteVal (r : Register) (index : Nat) : Nat :=
  (r.data >>> ((2 - index) * 6)) &&& 0b111111

/-- Register::get_byte with its assert!(index <= 2). -/
def Register.get_byte (r : Register) (index : Nat) : Option Nat :=
  if index ≤ 2 then some (r.byteVal index) else none

/-- Register::read_with_modifier: decode (left, right),
assert!(left <= right && right <= 2), then match: (0,0) returns
data & SIGN_MASK, (0,2) returns read(), otherwise the byte loop. -/
def Register.read_with_modifier (r : Register) (modifier : Nat) : Option Nat :=
  let left := (split_modifier modifier).1
  let right := (split_modifier modifier).2
  if left ≤ right ∧ right ≤ 2 then
    some (match left, right with
      | 0, 0 => r.data &&& Register.SIGN_MASK
      | 0, 2 => r.read
      | _, _ => (List.range' left (right + 1 - left)).foldl
          (fun result index => (result <<< 6) ||| r.byteVal index) 0)
  else
    none

def Register.write (r : Register) (number : Nat) (sign : Bool) : Register :=
  ⟨(number &&& Register.DATA_MASK) ||| if sign then Register.SIGN_MASK else 0⟩

def Register.write_data (r : Register) (number : Nat) : Register :=
  ⟨(number &&& Register.DATA_MASK) ||| (r.data &&& Register.SIGN_MASK)⟩

/-- Register::write_sign; !SIGN_MASK on u16 is 0xEFFF. -/
def Register.write_sign (r : Register) (sign : Bool) : Register :=
  if sign then ⟨r.data ||| Register.SIGN_MASK⟩
  else ⟨r.data &&& 0xEFFF⟩

/-! ### Instruction (instruction.rs) -/

inductive Command where
  | noop
  | lda
deriving DecidableEq, Repr

/-- From of Command for u32. -/
def Command.toU32 : Command → Nat
  | .noop => 0
  | .lda => 8

/-- From of u32 for Command; any other value hits unreachable!
("Command not implemented"), modelled as none. -/
def Command.ofU32 (value : Nat) : Option Command :=
  match value with
  | 0 => some .noop
  | 8 => some .lda
  | _ => none

structure Instruction where
  sign : Bool
  address : Nat
  index : Nat
  modifier : Nat
  command : Command
deriving DecidableEq, Repr

instance : Inhabited Instruction := ⟨⟨false, 0, 0, 0, .noop⟩⟩

def Instruction.COMMAND_MASK : Nat := 0x3F

def Instruction.MODIFIER_MASK : Nat := 0xFC0

def Instruction.INDEX_MASK : Nat := 0x3F000

def Instruction.ADDRESS_MASK : Nat := 0x3FFC0000

def Instruction.SIGN_MASK : Nat := 0x40000000

/-- From of Instruction for u32: each field masked to its declared width
and placed at its shift.  No sum exceeds 2^31, so Nat equals u32 here. -/
def Instruction.toU32 (i : Instruction) : Nat :=
  (i.command.toU32 &&& 0b111111)
    ||| ((i.modifier &&& 0b111111) <<< 6)
    ||| ((i.index &&& 0b111111) <<< 12)
    ||| ((i.address &&& 0b1111111111111) <<< 18)
    ||| ((if i.sign then 1 else 0) <<< 30)

/-- From of u32 for Instruction; decoding the command can hit
unreachable!, hence Option. -/
def Instruction.ofU32 (value : Nat) : Option Instruction :=
  (Command.ofU32 (value &&& Instruction.COMMAND_MASK)).map fun c =>
    { command := c
      modifier := (value &&& Instruction.MODIFIER_MASK) >>> 6
      index := (value &&& Instruction.INDEX_MASK) >>> 12
      address := (value &&& Instruction.ADDRESS_MASK) >>> 18
      sign := decide ((value &&& Instruction.SIGN_MASK) ≠ 0) }

/-- From of Instruction for Word: Word::new(u32::from(value), Some(sign)). -/
def Word.ofInstruction (i : Instruction) : Word :=
  Word.new i.toU32 (some i.sign)

/-- From of Word for Instruction: each field is extracted with
read_with_modifier (modifiers 0, 12, 33, 44, 55, whose right parts are all
at most 5, so the extractions cannot fail); the command byte goes through
Command::from, which can hit unreachable!. -/
def Instruction.ofWord (w : Word) : Option Instruction :=
  (Command.ofU32 ((w.read_with_modifier 55).getD 0)).map fun c =>
    { sign := decide ((w.read_with_modifier 0).getD 0 ≠ 0)
      address := (w.read_with_modifier 12).getD 0
      index := (w.read_with_modifier 33).getD 0
      modifier := (w.read_with_modifier 44).getD 0
      command := c }

/-! ### Program (program.rs) and Computer (computer.rs)

A Program is an ordered list of Instructions.  The Computer owns a
4000-cell memory (modelled as a total function from addresses to Words;
only indices below 4000 are ever written, and reads at or beyond 4000 are
the out-of-bounds panics modelled explicitly below), flags, accumulator,
extension and six index registers. -/

inductive Compare where
  | none
  | less
  | equal
  | greater
deriving DecidableEq, Repr

structure Computer where
  overflow : Bool
  comparison : Compare
  memory : Nat → Word
  a : Word
  x : Word
  i1 : Register
  i2 : Register
  i3 : Register
  i4 : Register
  i5 : Register
  i6 : Register

def Computer.new : Computer :=
  { overflow := false
    comparison := .none
    memory := fun _ => Word.dflt
    a := Word.dflt
    x := Word.dflt
    i1 := Register.dflt
    i2 := Register.dflt
    i3 := Register.dflt
    i4 := Register.dflt
    i5 := Register.dflt
    i6 := Register.dflt }

/-- One memory store of Computer::load: self.memory[k] = Word::new(pack, None).
Instruction::pack is the u32 conversion of the instruction (the sign bit it
places above the data bits is discarded by Word::new's DATA_MASK, and the
sign argument is None, so the stored word always has a clear sign bit). -/
def Computer.store (c : Computer) (k : Nat) (i : Instruction) : Computer :=
  { c with memory := fun j => if j = k then Word.new i.toU32 none else c.memory j }

/-- The loop of Computer::load.  self.memory[index] panics when index
reaches 4000 (the array length); the Bool result is false when that panic
fires, and the Computer component is the state at that point (the cells
written before the panic stay written). -/
def Computer.loadGo : Computer → Nat → List Instruction → Computer × Bool
  | c, _, [] => (c, true)
  | c, k, i :: rest =>
    if k < 4000 then Computer.loadGo (c.store k i) (k + 1) rest
    else (c, false)

/-- Computer::load: enumerate the program's instructions from index 0. -/
def Computer.load (c : Computer) (program : List Instruction) : Computer × Bool :=
  Computer.loadGo c 0 program

/-- The ways Computer::execute can panic: unimplemented!("Unknown command")
for a command outside {0, 8}, and the index-out-of-bounds panic when an LDA
address reaches past the 4000-cell memory. -/
inductive ExecError where
  | unsupported (code : Nat)
  | indexOutOfBounds (addr : Nat)
deriving DecidableEq, Repr

/-- The decoded command field used by Computer::execute:
Instruction::unpack(word.read()).command, i.e. the low 6 bits. -/
def Computer.cmdAt (c : Computer) (j : Nat) : Nat :=
  (c.memory j).read &&& 0b111111

/-- The decoded address field used by Computer::execute:
Instruction::unpack(word.read()).address, i.e. bits 18..29. -/
def Computer.addrAt (c : Computer) (j : Nat) : Nat :=
  ((c.memory j).read &&& Instruction.ADDRESS_MASK) >>> 18

/-- The loop of Computer::execute, iterating memory positions j upward with
structural fuel (the loop body at position j; fuel counts the remaining
positions).  Command 0 is a no-op; command 8 (LDA) reads
self.memory[instruction.address] (panicking if the address is out of
bounds) and does nothing else — the assignment to the accumulator is
commented out in the source; any other command hits unimplemented!.
Errors carry the machine state at the point of the panic. -/
def Computer.executeGo (c : Computer) : Nat → Nat → Except (ExecError × Computer) Computer
  | 0, _ => .ok c
  | fuel + 1, j =>
    let cmd := c.cmdAt j
    if cmd = 0 then c.executeGo fuel (j + 1)
    else if cmd = 8 then
      let addr := c.addrAt j
      if addr < 4000 then c.executeGo fuel (j + 1)
      else .error (.indexOutOfBounds addr, c)
    else .error (.unsupported cmd, c)

/-- Computer::execute: one pass over all 4000 memory positions. -/
def Computer.execute (c : Computer) : Except (ExecError × Computer) Computer :=
  c.executeGo 4000 0


/-- The condition under which the execute loop body at position j neither
panics nor halts: a no-op, or an LDA whose address is in bounds. -/
def Computer.stepOk (c : Computer) (j : Nat) : Prop :=
  c.cmdAt j = 0 ∨ (c.cmdAt j = 8 ∧ c.addrAt j < 4000)

instance (c : Computer) (j : Nat) : Decidable (c.stepOk j) := by
  unfold Computer.stepOk
  infer_instance

/-! ### Concrete fixtures for the load/execute scenario of the spec

A fresh machine whose memory cell 10 is preloaded with the Word +256
(sign set, magnitude 256), and a 5-instruction program whose instruction 0
is LDA with address 10 and modifier 5 (the full field (0,5)) followed by
four no-ops. -/

def noopInstr : Instruction := ⟨false, 0, 0, 0, .noop⟩

def scenarioComputer : Computer :=
  { Computer.new with
      memory := fun j => if j = 10 then Word.new 256 (some true) else Computer.new.memory j }

def scenarioProgram : List Instruction :=
  [⟨false, 10, 0, 5, .lda⟩, noopInstr, noopInstr, noopInstr, noopInstr]

def scenarioLoaded : Computer := (Computer.load scenarioComputer scenarioProgram).1

/-! ### Reachable container states

Word and Register states reachable through the public constructors and
mutators of word.rs / register.rs. -/

inductive WordReach : Word → Prop where
  | new (number : Nat) (sign : Option Bool) : WordReach (Word.new number sign)
  | dflt : WordReach Word.dflt
  | ofU32 (value : Nat) : WordReach (Word.ofU32 value)
  | ofInstruction (i : Instruction) : WordReach (Word.ofInstruction i)
  | write (w : Word) (number : Nat) (sign : Bool) :
      WordReach w → WordReach (w.write number sign)
  | write_data (w : Word) (number : Nat) :
      WordReach w → WordReach (w.write_data number)
  | write_sign (w : Word) (sign : Bool) :
      WordReach w → WordReach (w.write_sign sign)

inductive RegisterReach : Register → Prop where
  | new (number : Nat) (sign : Option Bool) : RegisterReach (Register.new number sign)
  | dflt : RegisterReach Register.dflt
  | write (r : Register) (number : Nat) (sign : Bool) :
      RegisterReach r → RegisterReach (r.write number sign)
  | write_data (r : Register) (number : Nat) :
      RegisterReach r → RegisterReach (r.write_data number)
  | write_sign (r : Register) (sign : Bool) :
      RegisterReach r → RegisterReach (r.write_sign sign)

/-! ### Bit-arithmetic helper lemmas -/

/-- Oring a left-shifted value with a value below the shifted-in width is
addition (the bit ranges are disjoint). -/
theorem shl_or_eq_add (a : Nat) {b k : Nat} (hb : b < 2 ^ k) :
    (a <<< k) ||| b = a * 2 ^ k + b := by
  induction k generalizing a b with
  | zero =>
    have hb0 : b = 0 := by omega
    subst hb0
    simp
  | succ k ih =>
    have hsh : a <<< (k + 1) = (2 * a) <<< k := Nat.shiftLeft_succ_inside a k
    have hmul2 : a * 2 ^ (k + 1) = 2 * (a * 2 ^ k) := by ring
    have hb2 : b / 2 < 2 ^ k := by
      have := Nat.pow_succ 2 k
      omega
    have hdiv : (a <<< (k + 1) ||| b) / 2 = (2 * a) <<< k / 2 ||| b / 2 := by
      rw [hsh, Nat.or_div_two]
    have hshdiv : (2 * a) <<< k / 2 = a <<< k := by
      rw [Nat.shiftLeft_eq, Nat.shiftLeft_eq, Nat.mul_assoc]
      exact Nat.mul_div_cancel_left _ (by norm_num)
    have hmod : (a <<< (k + 1) ||| b) % 2 = b % 2 := by
      have hsm : a <<< (k + 1) % 2 = 0 := by
        rw [Nat.shiftLeft_eq, hmul2]
        omega
      rcases Nat.mod_two_eq_zero_or_one b with h | h
      · have : ¬ ((a <<< (k + 1) ||| b) % 2 = 1) := by
          rw [Nat.or_mod_two_eq_one]
          omega
        omega
      · have : (a <<< (k + 1) ||| b) % 2 = 1 := by
          rw [Nat.or_mod_two_eq_one]
          omega
        omega
    have hrec : a <<< k ||| b / 2 = a * 2 ^ k + b / 2 := ih a hb2
    have hdecomp := Nat.div_add_mod (a <<< (k + 1) ||| b) 2
    have hbdecomp := Nat.div_add_mod b 2
    rw [hshdiv] at hdiv
    omega

/-- Masking with 63 is reduction mod 64. -/
theorem and_63_eq (x : Nat) : x &&& 63 = x % 64 := by
  have h := Nat.and_pow_two_sub_one_eq_mod x 6
  norm_num at h
  exact h

/-- Masking with 8191 (13 ones) is reduction mod 2^13. -/
theorem and_8191_eq (x : Nat) : x &&& 8191 = x % 8192 := by
  have h := Nat.and_pow_two_sub_one_eq_mod x 13
  norm_num at h
  exact h

/-- Masking with Word.DATA_MASK (30 ones) is reduction mod 2^30. -/
theorem and_data_mask_eq (x : Nat) : x &&& Word.DATA_MASK = x % 2 ^ 30 := by
  have h := Nat.and_pow_two_sub_one_eq_mod x 30
  norm_num at h
  simpa [Word.DATA_MASK] using h

/-- Masking with Word.VALUE_MASK (31 ones) is reduction mod 2^31. -/
theorem and_value_mask_eq (x : Nat) : x &&& Word.VALUE_MASK = x % 2 ^ 31 := by
  have h := Nat.and_pow_two_sub_one_eq_mod x 31
  norm_num at h
  simpa [Word.VALUE_MASK] using h

/-- Masking with the Word sign bit extracts bit 30. -/
theorem and_word_sign_eq (x : Nat) : x &&& Word.SIGN_MASK = (x / 2 ^ 30 % 2) * 2 ^ 30 := by
  have h := Nat.and_two_pow x 30
  rw [Nat.toNat_testBit] at h
  simpa [Word.SIGN_MASK] using h

/-- Masking with the Register sign bit extracts bit 12. -/
theorem and_reg_sign_eq (x : Nat) : x &&& Register.SIGN_MASK = (x / 2 ^ 12 % 2) * 2 ^ 12 := by
  have h := Nat.and_two_pow x 12
  rw [Nat.toNat_testBit] at h
  simpa [Register.SIGN_MASK] using h

/-- Masking with Register.DATA_MASK (12 ones) is reduction mod 2^12. -/
theorem and_reg_data_mask_eq (x : Nat) : x &&& Register.DATA_MASK = x % 2 ^ 12 := by
  have h := Nat.and_pow_two_sub_one_eq_mod x 12
  norm_num at h
  simpa [Register.DATA_MASK] using h

/-- Masking with Register.VALUE_MASK (13 ones) is reduction mod 2^13. -/
theorem and_reg_value_mask_eq (x : Nat) : x &&& Register.VALUE_MASK = x % 2 ^ 13 := by
  have h := Nat.and_pow_two_sub_one_eq_mod x 13
  norm_num at h
  simpa [Register.VALUE_MASK] using h

/-- A Word byte value in div/mod form. -/
theorem word_byteVal_eq (w : Word) (i : Nat) :
    w.byteVal i = w.data / 2 ^ ((5 - i) * 6) % 64 := by
  rw [Word.byteVal, Nat.shiftRight_eq_div_pow]
  show _ &&& 63 = _
  rw [and_63_eq, Word.BYTES]

/-- A Register byte value in div/mod form. -/
theorem reg_byteVal_eq (r : Register) (i : Nat) :
    r.byteVal i = r.data / 2 ^ ((2 - i) * 6) % 64 := by
  rw [Register.byteVal, Nat.shiftRight_eq_div_pow]
  show _ &&& 63 = _
  rw [and_63_eq]

theorem word_byteVal_lt (w : Word) (i : Nat) : w.byteVal i < 64 := by
  rw [word_byteVal_eq]
  omega

theorem reg_byteVal_lt (r : Register) (i : Nat) : r.byteVal i < 64 := by
  rw [reg_byteVal_eq]
  omega

theorem or_low_high (x y k : Nat) (hx : x < 2 ^ k) : x ||| y * 2 ^ k = y * 2 ^ k + x := by
  have h := shl_or_eq_add y hx
  rw [Nat.shiftLeft_eq] at h
  rw [Nat.lor_comm]
  exact h

/-- The read_with_modifier loop accumulator is a big-endian positional sum:
folding (result << 6) | g i over positions l, l+1, ..., l+len-1 weights the
byte at position l+j by 64^(len-1-j). -/
theorem foldl_shl_or_eq_sum (g : Nat → Nat) (hg : ∀ i, g i < 64) :
    ∀ (len l acc : Nat),
      (List.range' l len).foldl (fun res i => (res <<< 6) ||| g i) acc
        = acc * 64 ^ len + ∑ j ∈ Finset.range len, g (l + j) * 64 ^ (len - 1 - j) := by
  intro len
  induction len with
  | zero => simp
  | succ n ih =>
    intro l acc
    rw [List.range'_succ, List.foldl_cons]
    rw [ih (l + 1)]
    have hstep : (acc <<< 6) ||| g l = acc * 64 + g l := by
      have h := shl_or_eq_add acc (show g l < 2 ^ 6 from by
        have := hg l
        omega)
      norm_num at h
      exact h
    rw [hstep]
    have hsum : ∑ j ∈ Finset.range (n + 1), g (l + j) * 64 ^ (n + 1 - 1 - j)
        = (∑ j ∈ Finset.range n, g (l + 1 + j) * 64 ^ (n - 1 - j)) + g l * 64 ^ n := by
      rw [Finset.sum_range_succ']
      have h1 : ∀ j ∈ Finset.range n,
          g (l + (j + 1)) * 64 ^ (n + 1 - 1 - (j + 1)) = g (l + 1 + j) * 64 ^ (n - 1 - j) := by
        intro j hj
        have e1 : l + (j + 1) = l + 1 + j := by omega
        have e2 : n + 1 - 1 - (j + 1) = n - 1 - j := by omega
        rw [e1, e2]
      rw [Finset.sum_congr rfl h1]
      simp
    rw [hsum, pow_succ]
    ring

/-- read_with_modifier 0 on a Word is byte 0, the 6-bit slice at bit 30. -/
theorem word_rwm0_eq (w : Word) :
    w.read_with_modifier 0 = some (w.data / 2 ^ 30 % 64) := by
  simp [Word.read_with_modifier, split_modifier, Word.BYTES, List.range',
    word_byteVal_eq]

/-- read_with_modifier 12 on a Word concatenates bytes 1 and 2. -/
theorem word_rwm12_eq (w : Word) :
    w.read_with_modifier 12
      = some ((w.data / 2 ^ 24 % 64) * 64 + w.data / 2 ^ 18 % 64) := by
  simp only [Word.read_with_modifier, split_modifier, Word.BYTES]
  norm_num
  have hl : List.range' 1 2 = [1, 2] := rfl
  rw [hl]
  simp only [List.foldl_cons, List.foldl_nil, Nat.zero_shiftLeft, Nat.zero_or]
  have h := shl_or_eq_add (w.byteVal 1) (show w.byteVal 2 < 2 ^ 6 from by
    have := word_byteVal_lt w 2
    omega)
  norm_num at h
  rw [h, word_byteVal_eq, word_byteVal_eq]
  norm_num

/-- read_with_modifier 33 on a Word is byte 3. -/
theorem word_rwm33_eq (w : Word) :
    w.read_with_modifier 33 = some (w.data / 2 ^ 12 % 64) := by
  simp [Word.read_with_modifier, split_modifier, Word.BYTES, List.range',
    word_byteVal_eq]

/-- read_with_modifier 44 on a Word is byte 4. -/
theorem word_rwm44_eq (w : Word) :
    w.read_with_modifier 44 = some (w.data / 2 ^ 6 % 64) := by
  simp [Word.read_with_modifier, split_modifier, Word.BYTES, List.range',
    word_byteVal_eq]

/-- read_with_modifier 55 on a Word is byte 5, the low 6 bits. -/
theorem word_rwm55_eq (w : Word) :
    w.read_with_modifier 55 = some (w.data % 64) := by
  simp [Word.read_with_modifier, split_modifier, Word.BYTES, List.range',
    word_byteVal_eq]

/-- read_with_modifier 0 on a Register takes the (0,0) match arm: the raw
sign-masked data. -/
theorem reg_rwm0_eq (r : Register) :
    r.read_with_modifier 0 = some (r.data &&& Register.SIGN_MASK) := by
  simp [Register.read_with_modifier, split_modifier]

/-! ### Claim theorems -/

/-- C9: for every Register and every Word in any state, write_data changes
only the magnitude and leaves the sign bit exactly as it was, and
write_sign changes only the sign bit and leaves all magnitude bits exactly
as they were. -/
theorem C9_sign_data_independence :
    (∀ (w : Word) (n : Nat),
      (w.write_data n).data &&& Word.SIGN_MASK = w.data &&& Word.SIGN_MASK ∧
      (w.write_data n).read_sign = w.read_sign) ∧
    (∀ (w : Word) (b : Bool),
      (w.write_sign b).data &&& Word.DATA_MASK = w.data &&& Word.DATA_MASK ∧
      (w.write_sign b).read_data = w.read_data) ∧
    (∀ (r : Register) (n : Nat),
      (r.write_data n).data &&& Register.SIGN_MASK = r.data &&& Register.SIGN_MASK ∧
      (r.write_data n).read_sign = r.read_sign) ∧
    (∀ (r : Register) (b : Bool),
      (r.write_sign b).data &&& Register.DATA_MASK = r.data &&& Register.DATA_MASK ∧
      (r.write_sign b).read_data = r.read_data) := by
  have hw1 : Word.DATA_MASK &&& Word.SIGN_MASK = 0 := by decide
  have hw2 : Word.SIGN_MASK &&& Word.SIGN_MASK = Word.SIGN_MASK := by decide
  have hw3 : Word.SIGN_MASK &&& Word.DATA_MASK = 0 := by decide
  have hw4 : (0xBFFFFFFF : Nat) &&& Word.DATA_MASK = Word.DATA_MASK := by decide
  have hr1 : Register.DATA_MASK &&& Register.SIGN_MASK = 0 := by decide
  have hr2 : Register.SIGN_MASK &&& Register.SIGN_MASK = Register.SIGN_MASK := by decide
  have hr3 : Register.SIGN_MASK &&& Register.DATA_MASK = 0 := by decide
  have hr4 : (0xEFFF : Nat) &&& Register.DATA_MASK = Register.DATA_MASK := by decide
  refine ⟨fun w n => ?_, fun w b => ?_, fun r n => ?_, fun r b => ?_⟩
  · have hd : (w.write_data n).data &&& Word.SIGN_MASK = w.data &&& Word.SIGN_MASK := by
      show ((n &&& Word.DATA_MASK) ||| (w.data &&& Word.SIGN_MASK)) &&& Word.SIGN_MASK = _
      rw [Nat.and_distrib_right, Nat.and_assoc, Nat.and_assoc, hw1, hw2,
        Nat.and_zero, Nat.zero_or]
    exact ⟨hd, by rw [Word.read_sign, Word.read_sign, hd]⟩
  · have hd : (w.write_sign b).data &&& Word.DATA_MASK = w.data &&& Word.DATA_MASK := by
      cases b with
      | true =>
        show (w.data ||| Word.SIGN_MASK) &&& Word.DATA_MASK = _
        rw [Nat.and_distrib_right, hw3, Nat.or_zero]
      | false =>
        show (w.data &&& 0xBFFFFFFF) &&& Word.DATA_MASK = _
        rw [Nat.and_assoc, hw4]
    exact ⟨hd, by rw [Word.read_data, Word.read_data, hd]⟩
  · have hd : (r.write_data n).data &&& Register.SIGN_MASK = r.data &&& Register.SIGN_MASK := by
      show ((n &&& Register.DATA_MASK) ||| (r.data &&& Register.SIGN_MASK)) &&& Register.SIGN_MASK = _
      rw [Nat.and_distrib_right, Nat.and_assoc, Nat.and_assoc, hr1, hr2,
        Nat.and_zero, Nat.zero_or]
    exact ⟨hd, by rw [Register.read_sign, Register.read_sign, hd]⟩
  · have hd : (r.write_sign b).data &&& Register.DATA_MASK = r.data &&& Register.DATA_MASK := by
      cases b with
      | true =>
        show (r.data ||| Register.SIGN_MASK) &&& Register.DATA_MASK = _
        rw [Nat.and_distrib_right, hr3, Nat.or_zero]
      | false =>
        show (r.data &&& 0xEFFF) &&& Register.DATA_MASK = _
        rw [Nat.and_assoc, hr4]
    exact ⟨hd, by rw [Register.read_data, Register.read_data, hd]⟩

/-- C5 counterexample: on the Word with bit pattern
0b0111_1111_0000_0000_0000_0000_0000_0000 (sign bit set, bits 29..24 all
ones), read_with_modifier(11) — byte 1 alone — returns 63, not 0 as the
claim states: byte position 1 is the most significant data byte. -/
theorem C5_counterexample :
    (Word.ofU32 0x7F000000).read_with_modifier 11 = some 63 := by decide

/-- C5 (amended): for 0 < right ≤ 5 and left ≤ right,
read_with_modifier(left*10+right) returns the big-endian concatenation of
the 6-bit bytes at positions left..right, where position 0 is the sign
slice at bit 30 and position 1 is the most significant data byte; on the
example word the byte-1 field is 0b111111 = 63, not 0. -/
theorem C5_field_extraction_amended :
    (∀ (w : Word) (l r : Nat), 0 < r → l ≤ r → r ≤ 5 →
      w.read_with_modifier (10 * l + r)
        = some (∑ j ∈ Finset.range (r + 1 - l), w.byteVal (l + j) * 64 ^ (r - l - j))) ∧
    (Word.ofU32 0x7F000000).read_with_modifier 11 = some 63 := by
  constructor
  · intro w l r h0 hlr hr5
    have hsplit1 : (10 * l + r) / 10 = l := by omega
    have hsplit2 : (10 * l + r) % 10 = r := by omega
    simp only [Word.read_with_modifier, split_modifier, hsplit1, hsplit2, Word.BYTES]
    rw [if_pos hr5]
    rw [foldl_shl_or_eq_sum w.byteVal (word_byteVal_lt w) (r + 1 - l) l 0]
    rw [Nat.zero_mul, Nat.zero_add]
    congr 1
    apply Finset.sum_congr rfl
    intro j hj
    have he : r + 1 - l - 1 - j = r - l - j := by omega
    rw [he]
  · decide

/-- C5 witness: concrete instance of the amended field-extraction law. -/
theorem C5_field_extraction_witness :
    (Word.ofU32 0xABC).read_with_modifier 45
      = some (∑ j ∈ Finset.range 2, (Word.ofU32 0xABC).byteVal (4 + j) * 64 ^ (1 - j)) :=
  C5_field_extraction_amended.1 (Word.ofU32 0xABC) 4 5 (by decide) (by decide) (by decide)

/-- C6 counterexample: a Register with the sign bit set returns the raw
sign mask 4096 from read_with_modifier(0), not 1 as the claim states. -/
theorem C6_counterexample :
    (Register.new 0 (some true)).read_with_modifier 0 ≠ some 1 := by decide

/-- C6 (amended): read_with_modifier(0) never returns byte content: a Word
(in any state reachable from the constructors, i.e. with data below 2^31)
yields 0 or 1 according to the sign bit, while a Register yields 0 when
the sign is clear and the raw sign mask 4096 when it is set. -/
theorem C6_sign_field_amended :
    (∀ w : Word, w.data < 2 ^ 31 →
      w.read_with_modifier 0 = some (if w.read_sign then 1 else 0)) ∧
    (∀ r : Register,
      r.read_with_modifier 0 = some (if r.read_sign then 4096 else 0)) := by
  constructor
  · intro w hw
    rw [word_rwm0_eq]
    congr 1
    have hsign : w.read_sign = decide (w.data / 2 ^ 30 % 2 = 1) := by
      rw [Word.read_sign]
      rw [show w.data &&& Word.SIGN_MASK = (w.data / 2 ^ 30 % 2) * 2 ^ 30 from and_word_sign_eq w.data]
      rcases Nat.mod_two_eq_zero_or_one (w.data / 2 ^ 30) with h | h <;> simp [h]
    have hlt : w.data / 2 ^ 30 = 0 ∨ w.data / 2 ^ 30 = 1 := by omega
    rcases hlt with h | h <;> simp [hsign, h] <;> split <;> omega
  · intro r
    rw [reg_rwm0_eq]
    congr 1
    rw [show r.data &&& Register.SIGN_MASK = (r.data / 2 ^ 12 % 2) * 2 ^ 12 from and_reg_sign_eq r.data]
    have hsign : r.read_sign = decide (r.data / 2 ^ 12 % 2 = 1) := by
      rw [Register.read_sign]
      rw [show r.data &&& Register.SIGN_MASK = (r.data / 2 ^ 12 % 2) * 2 ^ 12 from and_reg_sign_eq r.data]
      rcases Nat.mod_two_eq_zero_or_one (r.data / 2 ^ 12) with h | h <;> simp [h]
    rcases Nat.mod_two_eq_zero_or_one (r.data / 2 ^ 12) with h | h <;>
        simp [hsign, h] <;> split <;> omega

/-- C6 witness: the amended sign-field law at concrete inputs. -/
theorem C6_sign_field_witness :
    (Word.new 0 (some true)).read_with_modifier 0
        = some (if (Word.new 0 (some true)).read_sign then 1 else 0) ∧
    (Register.new 0 (some true)).read_with_modifier 0
        = some (if (Register.new 0 (some true)).read_sign then 4096 else 0) :=
  ⟨C6_sign_field_amended.1 (Word.new 0 (some true)) (by decide),
   C6_sign_field_amended.2 (Register.new 0 (some true))⟩

/-- C7 counterexample: modifier 21 decodes to (left, right) = (2, 1),
violating left ≤ right, yet Word::read_with_modifier does not fail: it
returns the empty accumulation 0. -/
theorem C7_counterexample :
    (Word.ofU32 5).read_with_modifier 21 = some 0 := by decide

/-- C7 (amended): Register::read_with_modifier fails fast exactly when
left > right or right > 2; Word::read_with_modifier fails fast only when
right > 5 — when left > right (and right ≤ 5) it silently returns 0
instead of failing. -/
theorem C7_contract_amended :
    (∀ (r : Register) (m : Nat),
      (r.read_with_modifier m).isNone ↔ ¬(m / 10 ≤ m % 10 ∧ m % 10 ≤ 2)) ∧
    (∀ (w : Word) (m : Nat),
      (w.read_with_modifier m).isNone ↔ ¬(m % 10 ≤ 5)) ∧
    (∀ (w : Word) (m : Nat), m % 10 < m / 10 → m % 10 ≤ 5 →
      w.read_with_modifier m = some 0) := by
  refine ⟨fun r m => ?_, fun w m => ?_, fun w m hlr hr5 => ?_⟩
  · simp only [Register.read_with_modifier, split_modifier]
    by_cases h : m / 10 ≤ m % 10 ∧ m % 10 ≤ 2
    · rw [if_pos h]
      simp [h]
    · rw [if_neg h]
      simp [h]
  · simp only [Word.read_with_modifier, split_modifier, Word.BYTES]
    by_cases h : m % 10 ≤ 5
    · rw [if_pos h]
      simp [h]
    · rw [if_neg h]
      simp [h]
  · simp only [Word.read_with_modifier, split_modifier, Word.BYTES]
    rw [if_pos hr5]
    have hempty : m % 10 + 1 - m / 10 = 0 := by omega
    rw [hempty]
    simp

/-- C7 witness: the amended contract at concrete inputs: Register fails on
(2,1) and on right 3 > 2; Word fails on right 6 > 5 but returns 0 on (2,1). -/
theorem C7_contract_witness :
    ((Register.new 7 none).read_with_modifier 21).isNone = true ∧
    ((Word.ofU32 7).read_with_modifier 6).isNone = true ∧
    (Word.ofU32 7).read_with_modifier 21 = some 0 := by
  refine ⟨?_, ?_, ?_⟩
  · rw [(C7_contract_amended.1 (Register.new 7 none) 21)]
    decide
  · rw [(C7_contract_amended.2.1 (Word.ofU32 7) 6)]
    decide
  · exact C7_contract_amended.2.2 (Word.ofU32 7) 21 (by decide) (by decide)

/-- The packed u32 of an instruction whose modifier, index fit in 6 bits
and whose address fits in 12 bits, in additive positional form. -/
theorem toU32_eq_add (i : Instruction) (ha : i.address < 2 ^ 12)
    (hx : i.index < 64) (hm : i.modifier < 64) :
    i.toU32 = i.command.toU32 + i.modifier * 2 ^ 6 + i.index * 2 ^ 12
      + i.address * 2 ^ 18 + (if i.sign then 1 else 0) * 2 ^ 30 := by
  have hclt : i.command.toU32 < 64 := by cases i.command <;> decide
  have hc63 : i.command.toU32 &&& 63 = i.command.toU32 := by
    rw [and_63_eq]
    omega
  have hm63 : i.modifier &&& 63 = i.modifier := by
    rw [and_63_eq]
    omega
  have hx63 : i.index &&& 63 = i.index := by
    rw [and_63_eq]
    omega
  have ha13 : i.address &&& 8191 = i.address := by
    rw [and_8191_eq]
    omega
  show (i.command.toU32 &&& 63) ||| ((i.modifier &&& 63) <<< 6)
      ||| ((i.index &&& 63) <<< 12) ||| ((i.address &&& 8191) <<< 18)
      ||| ((if i.sign then 1 else 0) <<< 30) = _
  rw [hc63, hm63, hx63, ha13]
  have h1 : i.command.toU32 ||| (i.modifier <<< 6)
      = i.modifier * 2 ^ 6 + i.command.toU32 := by
    rw [Nat.lor_comm]
    exact shl_or_eq_add i.modifier (by omega)
  rw [h1]
  have h2 : i.modifier * 2 ^ 6 + i.command.toU32 ||| (i.index <<< 12)
      = i.index * 2 ^ 12 + (i.modifier * 2 ^ 6 + i.command.toU32) := by
    rw [Nat.lor_comm]
    exact shl_or_eq_add i.index (by omega)
  rw [h2]
  have h3 : i.index * 2 ^ 12 + (i.modifier * 2 ^ 6 + i.command.toU32)
      ||| (i.address <<< 18)
      = i.address * 2 ^ 18 + (i.index * 2 ^ 12 + (i.modifier * 2 ^ 6 + i.command.toU32)) := by
    rw [Nat.lor_comm]
    exact shl_or_eq_add i.address (by omega)
  rw [h3]
  have hs1 : (if i.sign then (1:Nat) else 0) ≤ 1 := by cases i.sign <;> simp
  have h4 : i.address * 2 ^ 18 + (i.index * 2 ^ 12 + (i.modifier * 2 ^ 6 + i.command.toU32))
      ||| ((if i.sign then 1 else 0) <<< 30)
      = (if i.sign then 1 else 0) * 2 ^ 30
        + (i.address * 2 ^ 18 + (i.index * 2 ^ 12 + (i.modifier * 2 ^ 6 + i.command.toU32))) := by
    rw [Nat.lor_comm]
    exact shl_or_eq_add _ (by omega)
  rw [h4]
  omega

/-- The data of the Word encoding of an in-width instruction, in additive
positional form: the sign bit lands at bit 30 whether it came from the
packed value or from Word::new's sign argument. -/
theorem ofInstruction_data_eq (i : Instruction) (ha : i.address < 2 ^ 12)
    (hx : i.index < 64) (hm : i.modifier < 64) :
    (Word.ofInstruction i).data
      = i.command.toU32 + i.modifier * 2 ^ 6 + i.index * 2 ^ 12
        + i.address * 2 ^ 18 + (if i.sign then 1 else 0) * 2 ^ 30 := by
  have hclt : i.command.toU32 < 64 := by cases i.command <;> decide
  have ht := toU32_eq_add i ha hx hm
  have hbase : i.command.toU32 + i.modifier * 2 ^ 6 + i.index * 2 ^ 12
      + i.address * 2 ^ 18 < 2 ^ 30 := by omega
  rw [Word.ofInstruction]
  cases hs : i.sign with
  | false =>
    show i.toU32 &&& Word.DATA_MASK = _
    rw [and_data_mask_eq]
    have hsif : (if false = true then (1:Nat) else 0) = 0 := rfl
    rw [hsif]
    omega
  | true =>
    show (i.toU32 &&& Word.DATA_MASK) ||| Word.SIGN_MASK = _
    rw [and_data_mask_eq]
    have hsif : (if true = true then (1:Nat) else 0) = 1 := rfl
    rw [hsif]
    have hmod : i.toU32 % 2 ^ 30 = i.command.toU32 + i.modifier * 2 ^ 6
        + i.index * 2 ^ 12 + i.address * 2 ^ 18 := by omega
    rw [hmod]
    rw [show Word.SIGN_MASK = 1 * 2 ^ 30 from by norm_num [Word.SIGN_MASK]]
    rw [or_low_high _ 1 30 hbase]
    omega

theorem word_eq_of_data {w1 w2 : Word} (h : w1.data = w2.data) : w1 = w2 := by
  cases w1
  cases w2
  simpa using h

/-- Decoding a Word whose data decomposes into fields cv (6 bits), m, x
(6 bits each), a (12 bits) and sign s at bit 30 recovers those fields. -/
theorem ofWord_fields (w : Word) (cv m x a s : Nat) (hcv : cv < 64)
    (hm : m < 64) (hx : x < 64) (ha : a < 2 ^ 12) (hs : s ≤ 1)
    (hd : w.data = cv + m * 2 ^ 6 + x * 2 ^ 12 + a * 2 ^ 18 + s * 2 ^ 30) :
    Instruction.ofWord w
      = (Command.ofU32 cv).map fun c => ⟨decide (s ≠ 0), a, x, m, c⟩ := by
  rw [Instruction.ofWord, word_rwm55_eq, word_rwm44_eq, word_rwm33_eq,
    word_rwm12_eq, word_rwm0_eq]
  have e55 : w.data % 64 = cv := by omega
  have e44 : w.data / 2 ^ 6 % 64 = m := by omega
  have e33 : w.data / 2 ^ 12 % 64 = x := by omega
  have e12 : w.data / 2 ^ 24 % 64 * 64 + w.data / 2 ^ 18 % 64 = a := by omega
  have e0 : w.data / 2 ^ 30 % 64 = s := by omega
  simp only [Option.getD_some, e55, e44, e33, e12, e0]

/-- C1 counterexample: the instruction with address 4096 (which is below
2^13, hence within the claimed field widths) does not survive the
Word round trip: bit 12 of the address is packed into bit 30, where
Word::new's DATA_MASK discards it. -/
theorem C1_counterexample :
    Instruction.ofWord (Word.ofInstruction ⟨false, 4096, 0, 0, .noop⟩)
      ≠ some ⟨false, 4096, 0, 0, .noop⟩ := by decide

/-- C1 (amended): the round trip holds for addresses below 2^12 (not 2^13:
the thirteenth address bit is silently dropped), indices and modifiers
below 2^6, any sign and any implemented command; and every word with a
clear bit 31 whose low command byte is an implemented code (0 or 8) is
reproduced exactly by decode-then-encode. -/
theorem C1_roundtrip_amended :
    (∀ i : Instruction, i.address < 2 ^ 12 → i.index < 2 ^ 6 → i.modifier < 2 ^ 6 →
      Instruction.ofWord (Word.ofInstruction i) = some i) ∧
    (∀ w : Word, w.data < 2 ^ 31 → (w.data % 64 = 0 ∨ w.data % 64 = 8) →
      (Instruction.ofWord w).map Word.ofInstruction = some w) := by
  constructor
  · intro i ha hx hm
    have ha' : i.address < 2 ^ 12 := ha
    have hx' : i.index < 64 := hx
    have hm' : i.modifier < 64 := hm
    have hclt : i.command.toU32 < 64 := by cases i.command <;> decide
    have hs1 : (if i.sign then (1:Nat) else 0) ≤ 1 := by cases i.sign <;> simp
    rw [ofWord_fields (Word.ofInstruction i) i.command.toU32 i.modifier i.index
      i.address (if i.sign then 1 else 0) hclt hm' hx' ha' hs1
      (ofInstruction_data_eq i ha' hx' hm')]
    have hcmd : Command.ofU32 i.command.toU32 = some i.command := by
      cases i.command <;> rfl
    rw [hcmd]
    have hsd : decide ((if i.sign then (1:Nat) else 0) ≠ 0) = i.sign := by
      cases i.sign <;> simp
    simp only [Option.map_some', hsd]
  · intro w hlt hcmd
    have hd : w.data = w.data % 64 + (w.data / 2 ^ 6 % 64) * 2 ^ 6
        + (w.data / 2 ^ 12 % 64) * 2 ^ 12 + (w.data / 2 ^ 18 % 2 ^ 12) * 2 ^ 18
        + (w.data / 2 ^ 30) * 2 ^ 30 := by omega
    have hb1 : w.data / 2 ^ 18 % 2 ^ 12 < 2 ^ 12 := by omega
    have hb2 : w.data / 2 ^ 12 % 64 < 64 := by omega
    have hb3 : w.data / 2 ^ 6 % 64 < 64 := by omega
    have h30 : w.data / 2 ^ 30 = 0 ∨ w.data / 2 ^ 30 = 1 := by omega
    rw [ofWord_fields w (w.data % 64) (w.data / 2 ^ 6 % 64) (w.data / 2 ^ 12 % 64)
      (w.data / 2 ^ 18 % 2 ^ 12) (w.data / 2 ^ 30) (by omega) (by omega) (by omega)
      (by omega) (by omega) hd]
    rcases hcmd with h | h
    · rw [h]
      simp only [Command.ofU32, Option.map_some']
      refine congrArg some (word_eq_of_data ?_)
      rw [ofInstruction_data_eq
        ⟨decide (w.data / 2 ^ 30 ≠ 0), w.data / 2 ^ 18 % 2 ^ 12,
          w.data / 2 ^ 12 % 64, w.data / 2 ^ 6 % 64, Command.noop⟩ hb1 hb2 hb3]
      simp only [Command.toU32]
      rcases h30 with h30 | h30 <;> rw [h30] <;> simp <;> omega
    · rw [h]
      simp only [Command.ofU32, Option.map_some']
      refine congrArg some (word_eq_of_data ?_)
      rw [ofInstruction_data_eq
        ⟨decide (w.data / 2 ^ 30 ≠ 0), w.data / 2 ^ 18 % 2 ^ 12,
          w.data / 2 ^ 12 % 64, w.data / 2 ^ 6 % 64, Command.lda⟩ hb1 hb2 hb3]
      simp only [Command.toU32]
      rcases h30 with h30 | h30 <;> rw [h30] <;> simp <;> omega

/-- C1 witness: the amended round trip at a maximal in-width instruction
and at a concrete well-formed word with command byte 8. -/
theorem C1_roundtrip_witness :
    Instruction.ofWord (Word.ofInstruction ⟨true, 4095, 63, 63, .lda⟩)
        = some ⟨true, 4095, 63, 63, .lda⟩ ∧
    (Instruction.ofWord (Word.ofU32 0x12345648)).map Word.ofInstruction
        = some (Word.ofU32 0x12345648) :=
  ⟨C1_roundtrip_amended.1 ⟨true, 4095, 63, 63, .lda⟩ (by decide) (by decide) (by decide),
   C1_roundtrip_amended.2 (Word.ofU32 0x12345648) (by decide) (by decide)⟩

/-! ### Load lemmas (Computer::load) -/

/-- The load loop succeeds exactly when the program fits in the remaining
memory. -/
theorem loadGo_snd (p : List Instruction) :
    ∀ (c : Computer) (k : Nat), k ≤ 4000 →
      (Computer.loadGo c k p).2 = decide (k + p.length ≤ 4000) := by
  induction p with
  | nil =>
    intro c k hk
    simp [Computer.loadGo]
    omega
  | cons i rest ih =>
    intro c k hk
    rw [Computer.loadGo]
    by_cases h : k < 4000
    · rw [if_pos h]
      rw [ih _ (k + 1) (by omega)]
      simp only [List.length_cons]
      congr 1
      simp
      omega
    · rw [if_neg h]
      simp only [List.length_cons]
      have : ¬ (k + (rest.length + 1) ≤ 4000) := by omega
      simp [this]

/-- Cells outside the program's range keep their prior contents. -/
theorem loadGo_mem_frame (p : List Instruction) :
    ∀ (c : Computer) (k j : Nat), j < k ∨ k + p.length ≤ j →
      (Computer.loadGo c k p).1.memory j = c.memory j := by
  induction p with
  | nil =>
    intro c k j _
    rfl
  | cons i rest ih =>
    intro c k j hj
    rw [Computer.loadGo]
    by_cases hk : k < 4000
    · rw [if_pos hk]
      rw [ih _ (k + 1) j (by simp only [List.length_cons] at hj ⊢; omega)]
      simp only [Computer.store]
      rw [if_neg (by simp only [List.length_cons] at hj; omega)]
    · rw [if_neg hk]

/-- Cells at positions the load loop writes hold the packed instruction. -/
theorem loadGo_mem_written (p : List Instruction) :
    ∀ (c : Computer) (k j : Nat), k ≤ j → j < k + p.length → j < 4000 →
      (Computer.loadGo c k p).1.memory j
        = Word.new ((p.getD (j - k) default).toU32) none := by
  induction p with
  | nil =>
    intro c k j h1 h2 h3
    simp at h2
    omega
  | cons i rest ih =>
    intro c k j h1 h2 h3
    rw [Computer.loadGo]
    have hk : k < 4000 := by omega
    rw [if_pos hk]
    by_cases hj : j = k
    · subst hj
      rw [loadGo_mem_frame rest _ (j + 1) j (Or.inl (by omega))]
      simp [Computer.store]
    · rw [ih _ (k + 1) j (by omega) (by simp only [List.length_cons] at h2; omega) h3]
      congr 2
      have hjk : j - k = (j - (k + 1)) + 1 := by omega
      rw [hjk]
      simp

/-- C3 counterexample: loading the one-instruction program whose
instruction has a negative sign does not store the Word conversion of that
instruction: Computer::load passes None as the sign to Word::new, so the
stored word is positive while Word::from(instruction) is negative. -/
theorem C3_counterexample :
    (Computer.load Computer.new [⟨true, 0, 0, 0, .noop⟩]).1.memory 0
      ≠ Word.ofInstruction ⟨true, 0, 0, 0, .noop⟩ := by decide

/-- C3 (amended): for programs of length at most 4000, load stores at each
position k the word Word::new(pack(instruction k), None) — every magnitude
field of the Word conversion, but always with a positive sign, the
instruction's sign being discarded — and every cell at or beyond the
program length keeps its prior contents. -/
theorem C3_load_amended (c : Computer) (p : List Instruction)
    (hlen : p.length ≤ 4000) :
    (Computer.load c p).2 = true ∧
    (∀ k, k < p.length →
      (Computer.load c p).1.memory k = Word.new ((p.getD k default).toU32) none) ∧
    (∀ k, p.length ≤ k → (Computer.load c p).1.memory k = c.memory k) := by
  refine ⟨?_, fun k hk => ?_, fun k hk => ?_⟩
  · rw [Computer.load, loadGo_snd p c 0 (by omega)]
    simp
    omega
  · rw [Computer.load, loadGo_mem_written p c 0 k (by omega) (by omega) (by omega)]
    simp
  · rw [Computer.load, loadGo_mem_frame p c 0 k (by omega)]

/-- C3 witness: the amended load contract on a concrete two-instruction
program. -/
theorem C3_load_witness :
    (Computer.load Computer.new [⟨true, 7, 0, 5, .lda⟩, ⟨false, 0, 0, 0, .noop⟩]).2 = true ∧
    (Computer.load Computer.new [⟨true, 7, 0, 5, .lda⟩, ⟨false, 0, 0, 0, .noop⟩]).1.memory 0
      = Word.new (Instruction.toU32 ⟨true, 7, 0, 5, .lda⟩) none ∧
    (Computer.load Computer.new [⟨true, 7, 0, 5, .lda⟩, ⟨false, 0, 0, 0, .noop⟩]).1.memory 2
      = Computer.new.memory 2 := by
  have h := C3_load_amended Computer.new
    [⟨true, 7, 0, 5, .lda⟩, ⟨false, 0, 0, 0, .noop⟩] (by decide)
  exact ⟨h.1, h.2.1 0 (by decide), h.2.2 2 (by decide)⟩

/-- C4 counterexample: loading 4001 instructions on a fresh machine does
not leave memory untouched: the load fails only after every cell has been
overwritten — cell 0 already differs from its prior (zero) contents in the
failure state. -/
theorem C4_counterexample :
    (Computer.load Computer.new (List.replicate 4001 ⟨false, 1, 0, 0, .noop⟩)).2 = false ∧
    (Computer.load Computer.new (List.replicate 4001 ⟨false, 1, 0, 0, .noop⟩)).1.memory 0
      ≠ Computer.new.memory 0 := by
  constructor
  · rw [Computer.load, loadGo_snd _ _ 0 (by omega), List.length_replicate]
    rfl
  · rw [Computer.load,
      loadGo_mem_written _ _ 0 0 (by omega) (by rw [Nat.zero_add, List.length_replicate]; omega) (by omega)]
    have hget : (List.replicate 4001 (⟨false, 1, 0, 0, .noop⟩ : Instruction)).getD (0 - 0) default
        = ⟨false, 1, 0, 0, .noop⟩ := rfl
    rw [hget]
    decide

/-- C4 (amended): load succeeds iff the program length is at most 4000 (so
exactly 4000 succeeds and 4001 fails), but the failure is an
index-out-of-bounds panic raised only after all 4000 cells have been
overwritten with the program's first 4000 instructions — not an
all-or-nothing CapacityExceeded reported before any write. -/
theorem C4_capacity_amended (c : Computer) (p : List Instruction) :
    ((Computer.load c p).2 = true ↔ p.length ≤ 4000) ∧
    (∀ k, k < p.length → k < 4000 →
      (Computer.load c p).1.memory k = Word.new ((p.getD k default).toU32) none) := by
  constructor
  · rw [Computer.load, loadGo_snd p c 0 (by omega)]
    simp
  · intro k hk1 hk2
    rw [Computer.load, loadGo_mem_written p c 0 k (by omega) (by omega) hk2]
    simp

/-- C4 witness: the amended capacity law at a concrete oversized program:
the flag is false and cell 0 was nevertheless overwritten. -/
theorem C4_capacity_witness :
    ((Computer.load Computer.new (List.replicate 4001 ⟨false, 2, 0, 0, .noop⟩)).2 = true
        ↔ (List.replicate 4001 (⟨false, 2, 0, 0, .noop⟩ : Instruction)).length ≤ 4000) ∧
    (Computer.load Computer.new (List.replicate 4001 ⟨false, 2, 0, 0, .noop⟩)).1.memory 0
      = Word.new (((List.replicate 4001 (⟨false, 2, 0, 0, .noop⟩ : Instruction)).getD 0 default).toU32) none :=
  ⟨(C4_capacity_amended Computer.new (List.replicate 4001 ⟨false, 2, 0, 0, .noop⟩)).1,
   (C4_capacity_amended Computer.new (List.replicate 4001 ⟨false, 2, 0, 0, .noop⟩)).2
     0 (by rw [List.length_replicate]; omega) (by omega)⟩

/-! ### Execute lemmas (Computer::execute) -/

/-- If every position the loop will visit is a no-op or an in-bounds LDA,
execution completes and the machine state is returned unchanged. -/
theorem executeGo_ok (c : Computer) :
    ∀ (fuel j : Nat), (∀ t, t < fuel → c.stepOk (j + t)) →
      c.executeGo fuel j = .ok c := by
  intro fuel
  induction fuel with
  | zero =>
    intro j _
    rfl
  | succ n ih =>
    intro j h
    show (if c.cmdAt j = 0 then c.executeGo n (j + 1)
        else if c.cmdAt j = 8 then
          (if c.addrAt j < 4000 then c.executeGo n (j + 1)
            else .error (.indexOutOfBounds (c.addrAt j), c))
        else .error (.unsupported (c.cmdAt j), c)) = .ok c
    have h0 := h 0 (by omega)
    rw [Nat.add_zero] at h0
    have hrest : ∀ t, t < n → c.stepOk (j + 1 + t) := by
      intro t ht
      have := h (t + 1) (by omega)
      rwa [show j + (t + 1) = j + 1 + t from by omega] at this
    rcases h0 with h0 | ⟨h8, haddr⟩
    · rw [if_pos h0]
      exact ih (j + 1) hrest
    · rw [if_neg (by omega), if_pos h8, if_pos haddr]
      exact ih (j + 1) hrest

/-- If the first k positions are fine and position j+k holds a command
outside {0, 8}, execution halts there with the unsupported code and the
unchanged machine state. -/
theorem executeGo_err (c : Computer) :
    ∀ (k fuel j : Nat), k < fuel → (∀ t, t < k → c.stepOk (j + t)) →
      c.cmdAt (j + k) ≠ 0 → c.cmdAt (j + k) ≠ 8 →
      c.executeGo fuel j = .error (.unsupported (c.cmdAt (j + k)), c) := by
  intro k
  induction k with
  | zero =>
    intro fuel j hf _ h0 h8
    obtain ⟨n, rfl⟩ : ∃ n, fuel = n + 1 := ⟨fuel - 1, by omega⟩
    show (if c.cmdAt j = 0 then c.executeGo n (j + 1)
        else if c.cmdAt j = 8 then
          (if c.addrAt j < 4000 then c.executeGo n (j + 1)
            else .error (.indexOutOfBounds (c.addrAt j), c))
        else .error (.unsupported (c.cmdAt j), c)) = _
    rw [Nat.add_zero] at h0 h8
    rw [if_neg h0, if_neg h8, Nat.add_zero]
  | succ m ih =>
    intro fuel j hf hok h0 h8
    obtain ⟨n, rfl⟩ : ∃ n, fuel = n + 1 := ⟨fuel - 1, by omega⟩
    show (if c.cmdAt j = 0 then c.executeGo n (j + 1)
        else if c.cmdAt j = 8 then
          (if c.addrAt j < 4000 then c.executeGo n (j + 1)
            else .error (.indexOutOfBounds (c.addrAt j), c))
        else .error (.unsupported (c.cmdAt j), c)) = _
    have hs := hok 0 (by omega)
    rw [Nat.add_zero] at hs
    have hidx : j + 1 + m = j + (m + 1) := by omega
    have htail := ih n (j + 1) (by omega)
      (fun t ht => by
        have := hok (t + 1) (by omega)
        rwa [show j + (t + 1) = j + 1 + t from by omega] at this)
      (by rwa [hidx]) (by rwa [hidx])
    rcases hs with hs | ⟨hs, ha⟩
    · rw [if_pos hs, htail, hidx]
    · rw [if_neg (by omega), if_pos hs, if_pos ha, htail, hidx]

/-- C8: if execution reaches a position whose decoded command is neither 0
(no-op) nor 8 (LDA) — every earlier position being a no-op or an in-bounds
LDA — the engine halts with an UnsupportedOperation error carrying the
offending code, and the machine state in the error is the entry state
unchanged (no register was mutated). -/
theorem C8_unsupported_halts (c : Computer) (j0 : Nat) (hj : j0 < 4000)
    (hpre : ∀ t, t < j0 → c.stepOk t) (h0 : c.cmdAt j0 ≠ 0) (h8 : c.cmdAt j0 ≠ 8) :
    c.execute = .error (.unsupported (c.cmdAt j0), c) := by
  rw [Computer.execute]
  have h := executeGo_err c j0 4000 0 hj
    (fun t ht => by simpa using hpre t ht) (by simpa using h0) (by simpa using h8)
  simpa using h

/-- C8 witness: a fresh machine whose cell 0 holds the word 9 (command
code 9, unimplemented) halts immediately with UnsupportedOperation 9 and
the state unchanged. -/
theorem C8_unsupported_witness :
    Computer.execute
        { Computer.new with
            memory := fun j => if j = 0 then Word.ofU32 9 else Computer.new.memory j }
      = .error (.unsupported 9,
          { Computer.new with
              memory := fun j => if j = 0 then Word.ofU32 9 else Computer.new.memory j }) :=
  C8_unsupported_halts
    { Computer.new with
        memory := fun j => if j = 0 then Word.ofU32 9 else Computer.new.memory j }
    0 (by omega) (fun t ht => absurd ht (by omega)) (by decide) (by decide)

/-- C2: the load/execute scenario of the spec.  Execution of the loaded
5-instruction program whose instruction 0 is LDA (address 10, full-field
modifier 5) completes, but the accumulator still holds the default zero
word: the LDA arm of Computer::execute reads the addressed cell and then
does nothing, the assignment to self.a being commented out in the source,
while the addressed cell holds the nonzero word +256 (sign bit set). -/
theorem C2_lda_leaves_accumulator :
    scenarioLoaded.execute = .ok scenarioLoaded ∧
    scenarioLoaded.a = Word.dflt ∧
    (scenarioLoaded.memory 10).read = 2 ^ 30 + 256 ∧
    Word.dflt.read = 0 := by
  refine ⟨?_, rfl, by decide, by decide⟩
  rw [Computer.execute]
  apply executeGo_ok
  intro t ht
  rw [Nat.zero_add]
  by_cases h0 : t = 0
  · subst h0
    exact Or.inr ⟨by decide, by decide⟩
  · by_cases h14 : t ≤ 4
    · left
      interval_cases t <;> first | exact absurd rfl h0 | decide
    · left
      have hmem : scenarioLoaded.memory t = scenarioComputer.memory t := by
        show (Computer.loadGo scenarioComputer 0 scenarioProgram).1.memory t = _
        exact loadGo_mem_frame scenarioProgram scenarioComputer 0 t
          (Or.inr (by simp [scenarioProgram]; omega))
      show (scenarioLoaded.memory t).read &&& 63 = 0
      rw [hmem]
      by_cases h10 : t = 10
      · subst h10
        decide
      · have hdflt : scenarioComputer.memory t = Word.dflt := by
          show (if t = 10 then Word.new 256 (some true) else Computer.new.memory t) = Word.dflt
          rw [if_neg h10]
          rfl
        rw [hdflt]
        decide

/-! ### Reachability bounds (C10) -/

theorem word_new_lt (n : Nat) (s : Option Bool) : (Word.new n s).data < 2 ^ 31 := by
  have h1 : n &&& 0x3FFFFFFF ≤ 0x3FFFFFFF := Nat.and_le_right
  rcases s with _ | b
  · show n &&& 0x3FFFFFFF < 2 ^ 31
    omega
  · cases b
    · show n &&& 0x3FFFFFFF < 2 ^ 31
      omega
    · show (n &&& 0x3FFFFFFF) ||| 0x40000000 < 2 ^ 31
      exact Nat.or_lt_two_pow (by omega) (by omega)

theorem reg_new_lt (n : Nat) (s : Option Bool) : (Register.new n s).data < 2 ^ 13 := by
  have h1 : n &&& 0x0FFF ≤ 0x0FFF := Nat.and_le_right
  rcases s with _ | b
  · show n &&& 0x0FFF < 2 ^ 13
    omega
  · cases b
    · show n &&& 0x0FFF < 2 ^ 13
      omega
    · show (n &&& 0x0FFF) ||| 0x1000 < 2 ^ 13
      exact Nat.or_lt_two_pow (by omega) (by omega)

/-- Every reachable Word state fits in 31 bits. -/
theorem wordReach_lt {w : Word} (h : WordReach w) : w.data < 2 ^ 31 := by
  induction h with
  | new number sign => exact word_new_lt number sign
  | dflt => exact word_new_lt 0 none
  | ofU32 value =>
    have h1 : value &&& 0x7FFFFFFF ≤ 0x7FFFFFFF := Nat.and_le_right
    show value &&& 0x7FFFFFFF < 2 ^ 31
    omega
  | ofInstruction i => exact word_new_lt i.toU32 (some i.sign)
  | write w number sign _ _ =>
    cases sign
    · have h1 : number &&& 0x3FFFFFFF ≤ 0x3FFFFFFF := Nat.and_le_right
      show (number &&& 0x3FFFFFFF) ||| 0 < 2 ^ 31
      rw [Nat.or_zero]
      omega
    · have h1 : number &&& 0x3FFFFFFF ≤ 0x3FFFFFFF := Nat.and_le_right
      show (number &&& 0x3FFFFFFF) ||| 0x40000000 < 2 ^ 31
      exact Nat.or_lt_two_pow (by omega) (by omega)
  | write_data w number _ _ =>
    have h1 : number &&& 0x3FFFFFFF ≤ 0x3FFFFFFF := Nat.and_le_right
    have h2 : w.data &&& 0x40000000 ≤ 0x40000000 := Nat.and_le_right
    show (number &&& 0x3FFFFFFF) ||| (w.data &&& 0x40000000) < 2 ^ 31
    exact Nat.or_lt_two_pow (by omega) (by omega)
  | write_sign w sign _ ih =>
    cases sign
    · have h1 : w.data &&& 0xBFFFFFFF ≤ w.data := Nat.and_le_left
      show w.data &&& 0xBFFFFFFF < 2 ^ 31
      omega
    · show w.data ||| 0x40000000 < 2 ^ 31
      exact Nat.or_lt_two_pow ih (by omega)

/-- Every reachable Register state fits in 13 bits. -/
theorem registerReach_lt {r : Register} (h : RegisterReach r) : r.data < 2 ^ 13 := by
  induction h with
  | new number sign => exact reg_new_lt number sign
  | dflt => exact reg_new_lt 0 none
  | write r number sign _ _ =>
    cases sign
    · have h1 : number &&& 0x0FFF ≤ 0x0FFF := Nat.and_le_right
      show (number &&& 0x0FFF) ||| 0 < 2 ^ 13
      rw [Nat.or_zero]
      omega
    · have h1 : number &&& 0x0FFF ≤ 0x0FFF := Nat.and_le_right
      show (number &&& 0x0FFF) ||| 0x1000 < 2 ^ 13
      exact Nat.or_lt_two_pow (by omega) (by omega)
  | write_data r number _ _ =>
    have h1 : number &&& 0x0FFF ≤ 0x0FFF := Nat.and_le_right
    have h2 : r.data &&& 0x1000 ≤ 0x1000 := Nat.and_le_right
    show (number &&& 0x0FFF) ||| (r.data &&& 0x1000) < 2 ^ 13
    exact Nat.or_lt_two_pow (by omega) (by omega)
  | write_sign r sign _ ih =>
    cases sign
    · have h1 : r.data &&& 0xEFFF ≤ r.data := Nat.and_le_left
      show r.data &&& 0xEFFF < 2 ^ 13
      omega
    · show r.data ||| 0x1000 < 2 ^ 13
      exact Nat.or_lt_two_pow ih (by omega)

/-- C10: every Word reachable through the public constructors and mutators
has all bits above the sign bit zero (data &&& VALUE_MASK == data), so
read() returns the stored pattern exactly and read_data() plus the sign
bit partition it; the analogous invariant holds for every reachable
Register. -/
theorem C10_reachable_invariant :
    (∀ w : Word, WordReach w →
      w.data &&& Word.VALUE_MASK = w.data ∧ w.read = w.data ∧
      w.data = w.read_data + (if w.read_sign then Word.SIGN_MASK else 0)) ∧
    (∀ r : Register, RegisterReach r →
      r.data &&& Register.VALUE_MASK = r.data ∧ r.read = r.data ∧
      r.data = r.read_data + (if r.read_sign then Register.SIGN_MASK else 0)) := by
  constructor
  · intro w hw
    have hlt := wordReach_lt hw
    have h1 : w.data &&& Word.VALUE_MASK = w.data := by
      rw [and_value_mask_eq]
      omega
    refine ⟨h1, h1, ?_⟩
    rw [Word.read_data, and_data_mask_eq, Word.read_sign, and_word_sign_eq]
    have h30 : w.data / 2 ^ 30 = 0 ∨ w.data / 2 ^ 30 = 1 := by omega
    rcases h30 with h30 | h30 <;> rw [h30] <;> simp [Word.SIGN_MASK] <;> omega
  · intro r hr
    have hlt := registerReach_lt hr
    have h1 : r.data &&& Register.VALUE_MASK = r.data := by
      rw [and_reg_value_mask_eq]
      omega
    refine ⟨h1, h1, ?_⟩
    rw [Register.read_data, and_reg_data_mask_eq, Register.read_sign, and_reg_sign_eq]
    have h12 : r.data / 2 ^ 12 = 0 ∨ r.data / 2 ^ 12 = 1 := by omega
    rcases h12 with h12 | h12 <;> rw [h12] <;> simp [Register.SIGN_MASK] <;> omega

/-- C10 witness: the invariant at concrete reachable states built from the
constructors and mutators. -/
theorem C10_reachable_witness :
    (Word.write_sign (Word.new 5 (some true)) false).data &&& Word.VALUE_MASK
        = (Word.write_sign (Word.new 5 (some true)) false).data ∧
    (Register.write_data (Register.new 9 none) 77).data &&& Register.VALUE_MASK
        = (Register.write_data (Register.new 9 none) 77).data :=
  ⟨(C10_reachable_invariant.1 _
      (WordReach.write_sign _ false (WordReach.new 5 (some true)))).1,
   (C10_reachable_invariant.2 _
      (RegisterReach.write_data _ 77 (RegisterReach.new 9 none))).1⟩

end MIXi

